import Mathlib

/-!
Verification of the synthetic handwriting data generator
(`gen_casia_company.py`, flowing company-name mode, and
`gen_handwriting_chinese_price.py`, slotted capital-number mode).

Images are shallowly embedded as a width, a height and an intensity
function on pixel coordinates.  Library raster operations that the code
calls with a random argument (rotation, dilation) are treated as oracle
functions supplied as parameters; every other operation (thresholding,
bounding box, crop, the arithmetic of normalization, layout and label
construction) is translated directly from the Python source.  Python
floats are modelled as rationals and Python `int()` as truncation toward
zero.  Randomness is modelled by passing each drawn value (or an index
into the drawn collection) as an explicit parameter constrained to the
range the code draws from.  The generators are modelled up to the data
that the claims mention: the returned label, the success or failure of
each paste, and the computed sizes and offsets; pixel contents of the
composited canvas are not tracked.
-/

/-- A single-channel raster image: width, height and intensity per pixel. -/
structure Img where
  w : Nat
  h : Nat
  px : Nat → Nat → Nat

/-- The value `img_gray.getpixel((0, 0))` with the `IndexError` fallback 255
used by `_get_char_mask` (gen_casia_company.py lines 82-85). -/
def cornerVal (im : Img) : Nat :=
  if im.w = 0 ∨ im.h = 0 then 255 else im.px 0 0

/-- Adaptive binarization of `_get_char_mask` (gen_casia_company.py
lines 87-92): light background (corner intensity above 128) keeps pixels
below 230 as foreground, dark background keeps pixels above 50. -/
def casiaThreshold (im : Img) : Img :=
  if cornerVal im > 128 then
    ⟨im.w, im.h, fun x y => if im.px x y < 230 then 255 else 0⟩
  else
    ⟨im.w, im.h, fun x y => if im.px x y > 50 then 255 else 0⟩

/-- Binarization of `_paste_single_char` (gen_handwriting_chinese_price.py
line 84): fixed threshold, pixels below 200 are foreground. -/
def priceThreshold (im : Img) : Img :=
  ⟨im.w, im.h, fun x y => if im.px x y < 200 then 255 else 0⟩

/-- Modelled from the claim text of C2 (spec section 4.1 step 2): the
adaptive foreground rule, corner intensity above 128 means foreground is
intensity below 230, otherwise foreground is intensity above 50. -/
def adaptiveFg (im : Img) (x y : Nat) : Bool :=
  if cornerVal im > 128 then decide (im.px x y < 230) else decide (im.px x y > 50)

/-- Whether an image has at least one nonzero pixel (PIL truthiness of
`getbbox`). -/
def hasFg (im : Img) : Bool :=
  (List.range im.w).any fun x => (List.range im.h).any fun y => im.px x y != 0

/-- Columns holding at least one nonzero pixel, in increasing order. -/
def fgCols (im : Img) : List Nat :=
  (List.range im.w).filter fun x => (List.range im.h).any fun y => im.px x y != 0

/-- Rows holding at least one nonzero pixel, in increasing order. -/
def fgRows (im : Img) : List Nat :=
  (List.range im.h).filter fun y => (List.range im.w).any fun x => im.px x y != 0

/-- PIL `Image.getbbox`: the bounding box `(left, upper, right, lower)` of
the nonzero pixels, with exclusive right and lower edges, or `none` when
the image has no nonzero pixel. -/
def getbbox (im : Img) : Option (Nat × Nat × Nat × Nat) :=
  match fgCols im with
  | [] => none
  | x0 :: xr =>
    match fgRows im with
    | [] => none
    | y0 :: yr => some (x0, y0, xr.foldl max x0 + 1, yr.foldl max y0 + 1)

/-- PIL `Image.crop` for a box `(l, u, r, d)`: the region is translated to
the origin and pixels read outside the source are zero. -/
def cropB (im : Img) (b : Nat × Nat × Nat × Nat) : Img :=
  ⟨b.2.2.1 - b.1, b.2.2.2 - b.2.1,
   fun x y => if b.1 + x < im.w ∧ b.2.1 + y < im.h then im.px (b.1 + x) (b.2.1 + y) else 0⟩

/-- Python `int()` applied to a rational: truncation toward zero. -/
def pyInt (q : ℚ) : ℤ := if 0 ≤ q then ⌊q⌋ else -⌊-q⌋

/-- `random.choice` from a sample list, the choice given by an index. -/
def selectImg (samples : List Img) (pick : Nat) : Img :=
  samples.getD (pick % samples.length) ⟨0, 0, fun _ _ => 0⟩

/-- `_get_char_mask` (gen_casia_company.py lines 69-111).  The sample list
of the requested character is passed in (an absent character has the empty
list, and `random.choice` on an empty list raises an `IndexError` that the
surrounding handler turns into `None` as well).  The random rotation with
canvas expansion is the oracle `rot`.  Cropping to the foreground box,
rotating, and re-cropping with the pre-rotation fallback follow the
source. -/
def get_char_mask (samples : List Img) (pick : Nat) (rot : Img → Img) : Option Img :=
  if samples.isEmpty then none
  else
    match getbbox (casiaThreshold (selectImg samples pick)) with
    | none => none
    | some b =>
      let cropped := cropB (casiaThreshold (selectImg samples pick)) b
      match getbbox (rot cropped) with
      | none => some cropped
      | some b2 => some (cropB (rot cropped) b2)

/-- The per-character mask collection loop of `generate_synthetic_image`
(gen_casia_company.py lines 138-144): the first failed extraction aborts
with `none`. -/
def collectMasks (charMap : Char → List Img) (picks : Nat → Nat)
    (rots : Nat → Img → Img) : List Char → Nat → Option (List Img)
  | [], _ => some []
  | c :: rest, i =>
    match get_char_mask (charMap c) (picks i) (rots i) with
    | none => none
    | some m =>
      match collectMasks charMap picks rots rest (i + 1) with
      | none => none
      | some t => some (m :: t)

/-- One step of the normalization loop of `generate_synthetic_image`
(gen_casia_company.py lines 155-175), acting on a mask of size `(w, h)`
with the batch maximum height `maxH`; `none` means the glyph is dropped
from the batch (`continue`). -/
def normalizeMask (maxH w h : Nat) : Option (Nat × Nat) :=
  if h = 0 then none
  else
    let aspect : ℚ := (w : ℚ) / (h : ℚ)
    if 2 < aspect then
      let target_width : ℤ := ⌊(maxH : ℚ) * (9 / 10)⌋
      let new_height : ℤ := max ⌊(target_width : ℚ) / aspect⌋ ⌊(maxH : ℚ) * (15 / 100)⌋
      if target_width = 0 then none
      else some (target_width.toNat, new_height.toNat)
    else
      let new_width : ℤ := ⌊(maxH : ℚ) * aspect⌋
      if new_width = 0 then none
      else some (new_width.toNat, maxH)

/-- Modelled from the claim text of C7: flat exactly when `r > 2.0`, flat
target width `floor(0.9 * maxH)` and height
`max(floor(0.9 * maxH / r), floor(0.15 * maxH))` (the quotient taken of
the unfloored product, as the claim words it), otherwise height `maxH`
and width `floor(maxH * r)`; drop rules as in the code. -/
def normalizeMaskClaim (maxH w h : Nat) : Option (Nat × Nat) :=
  if h = 0 then none
  else
    let r : ℚ := (w : ℚ) / (h : ℚ)
    if 2 < r then
      let tw : ℤ := ⌊(maxH : ℚ) * (9 / 10)⌋
      if tw = 0 then none
      else some (tw.toNat, (max ⌊(maxH : ℚ) * (9 / 10) / r⌋ ⌊(maxH : ℚ) * (15 / 100)⌋).toNat)
    else
      let nw : ℤ := ⌊(maxH : ℚ) * r⌋
      if nw = 0 then none
      else some (nw.toNat, maxH)

/-- Modelled from the claim text of C7 as amended: identical to the claim
formula except that the flat height divides the already floored target
width by the aspect ratio, `max(floor(floor(0.9 * maxH) / r),
floor(0.15 * maxH))`. -/
def normalizeMaskFixed (maxH w h : Nat) : Option (Nat × Nat) :=
  if h = 0 then none
  else
    let r : ℚ := (w : ℚ) / (h : ℚ)
    if 2 < r then
      let tw : ℤ := ⌊(maxH : ℚ) * (9 / 10)⌋
      if tw = 0 then none
      else some (tw.toNat, (max ⌊(tw : ℚ) / r⌋ ⌊(maxH : ℚ) * (15 / 100)⌋).toNat)
    else
      let nw : ℤ := ⌊(maxH : ℚ) * r⌋
      if nw = 0 then none
      else some (nw.toNat, maxH)

/-- `max(m.height for m in processed_char_masks)` over `(w, h)` pairs. -/
def batchMaxH (ms : List (Nat × Nat)) : Nat :=
  (ms.map Prod.snd).foldl max 0

/-- The whole normalization stage of `generate_synthetic_image`
(gen_casia_company.py lines 146-178) on the mask sizes: fails on an empty
batch, a zero maximum height, or when every glyph is dropped. -/
def normalizeBatch (ms : List (Nat × Nat)) : Option (List (Nat × Nat)) :=
  match ms with
  | [] => none
  | _ :: _ =>
    if batchMaxH ms = 0 then none
    else
      let out := ms.filterMap fun p => normalizeMask (batchMaxH ms) p.1 p.2
      if out.isEmpty then none else some out

/-- The candidate scale of `generate_synthetic_image`
(gen_casia_company.py lines 189-190): `(field_height - 6) * u / max_h`
with `u` drawn from `U(0.75, 0.90)`. -/
def casiaScaleRaw (fieldH maxH u : ℚ) : ℚ :=
  (fieldH - 6) * u / maxH

/-- The scale after the shrink-to-fit step (gen_casia_company.py
lines 192-194): when the expected width overflows `field_width - 10` the
scale becomes exactly `(field_width - 10) / original_total_width`. -/
def casiaScaleShrunk (fieldW fieldH maxH totalW u : ℚ) : ℚ :=
  if totalW * casiaScaleRaw fieldH maxH u > fieldW - 10 then (fieldW - 10) / totalW
  else casiaScaleRaw fieldH maxH u

/-- The final scale (gen_casia_company.py line 196): clamped to 2.5. -/
def casiaScale (fieldW fieldH maxH totalW u : ℚ) : ℚ :=
  min (5 / 2) (casiaScaleShrunk fieldW fieldH maxH totalW u)

/-- Widths of the glyphs kept by the per-glyph scaling loop
(gen_casia_company.py lines 199-204): each dimension is multiplied by the
scale and truncated, and a glyph with a zero dimension is skipped. -/
def scaledKeptWidths (glyphs : List (Nat × Nat)) (s : ℚ) : List ℤ :=
  glyphs.filterMap fun p =>
    let nw := pyInt ((p.1 : ℚ) * s)
    let nh := pyInt ((p.2 : ℚ) * s)
    if nw = 0 ∨ nh = 0 then none else some nw

/-- `total_w_scaled` (gen_casia_company.py line 226): the kept scaled
glyph widths plus every scaled inter-glyph spacing. -/
def placedWidth (glyphs : List (Nat × Nat)) (spacings : List Nat) (s : ℚ) : ℤ :=
  (scaledKeptWidths glyphs s).sum +
    (spacings.map fun sp : Nat => pyInt ((sp : ℚ) * s)).sum

/-- `generate_synthetic_image` (gen_casia_company.py lines 113-282),
modelled up to the data the claims mention: the scaled glyph sizes and
the label.  Every `return None, None` of the source is `none` here, in
source order: a character absent from the index, a failed extraction, an
empty batch, zero maximum height, an emptied normalized batch, zero total
width, an empty scaled batch, and a failed background load (the
background argument is `none` when `Image.open` would fail). -/
def generate_synthetic_image (charMap : Char → List Img) (bg : Option Img)
    (fieldBox : ℤ × ℤ × ℤ × ℤ) (label : List Char)
    (picks : Nat → Nat) (rots : Nat → Img → Img)
    (spacing : Nat → Nat) (u : ℚ) : Option (List (ℤ × ℤ) × List Char) :=
  if label.any fun c => (charMap c).isEmpty then none
  else
    match collectMasks charMap picks rots label 0 with
    | none => none
    | some masks =>
      if masks.isEmpty then none
      else
        let sizes := masks.map fun m => (m.w, m.h)
        if batchMaxH sizes = 0 then none
        else
          match normalizeBatch sizes with
          | none => none
          | some normed =>
            let spacings := (List.range (normed.length - 1)).map spacing
            let totalW := (normed.map Prod.fst).sum + spacings.sum
            if totalW = 0 then none
            else
              let fieldW : ℚ := ((fieldBox.2.2.1 - fieldBox.1 : ℤ) : ℚ)
              let fieldH : ℚ := ((fieldBox.2.2.2 - fieldBox.2.1 : ℤ) : ℚ)
              let s := casiaScale fieldW fieldH (batchMaxH sizes : ℚ) (totalW : ℚ) u
              let scaled := normed.filterMap fun p =>
                let nw := pyInt ((p.1 : ℚ) * s)
                let nh := pyInt ((p.2 : ℚ) * s)
                if nw = 0 ∨ nh = 0 then none else some (nw, nh)
              if scaled.isEmpty then none
              else
                match bg with
                | none => none
                | some _ => some (scaled, label)

/-- A slot rectangle `(x_min, y_min, x_max, y_max)`. -/
structure BBoxI where
  x1 : ℤ
  y1 : ℤ
  x2 : ℤ
  y2 : ℤ
deriving DecidableEq

/-- The random draws consumed by one call of `_paste_single_char`: the
sample choice, the 20 percent dilation coin together with the `MaxFilter`
oracle, the rotation oracle, and the two uniform scale draws
`U(0.7, 0.95)` and `U(0.9, 1.1)`. -/
structure PasteRand where
  pick : Nat
  dilate : Bool
  dil : Img → Img
  rot : Img → Img
  u1 : ℚ
  u2 : ℚ

/-- One slot of the slotted-mode output: the label pair (drawn digit or
blank marker, unit character) and, for a drawn slot, whether
`_paste_single_char` reported success. -/
structure Seg where
  digit : Char
  unit : Char
  pasted : Option Bool
deriving DecidableEq

/-- `TARGET_CHAR_SET` (gen_handwriting_chinese_price.py line 29). -/
def TARGET_CHAR_SET : List Char :=
  ['零', '壹', '貳', '參', '肆', '伍', '陸', '柒', '捌', '玖']

/-- `STATIC_UNITS` (gen_handwriting_chinese_price.py line 26). -/
def STATIC_UNITS : List Char :=
  ['億', '仟', '佰', '拾', '萬', '仟', '佰', '拾', '元']

/-- `DEFAULT_BBOXES` (gen_handwriting_chinese_price.py lines 13-23). -/
def DEFAULT_BBOXES : List BBoxI :=
  [⟨141, 493, 182, 532⟩, ⟨199, 492, 235, 534⟩, ⟨255, 492, 291, 534⟩,
   ⟨308, 492, 344, 534⟩, ⟨366, 492, 402, 534⟩, ⟨424, 491, 460, 533⟩,
   ⟨480, 492, 516, 534⟩, ⟨536, 492, 572, 534⟩, ⟨591, 490, 627, 532⟩]

/-- The fixed weight list of the start-index draw
(gen_handwriting_chinese_price.py line 201). -/
def WEIGHTS : List Nat := [1, 1, 1, 1, 2, 3, 4, 5, 5]

/-- `random.choices(population, weights=weights, k=1)[0]`, the drawn
element given by an index into the population: raises `ValueError`
(modelled as `Except.error`) when the population and weight lists have
different lengths. -/
def pyChoicesIdx (population : List Nat) (weights : List Nat) (k : Nat) : Except Unit Nat :=
  if population.length ≠ weights.length then Except.error ()
  else Except.ok (population.getD (k % population.length) 0)

/-- The thresholded and optionally dilated mask of `_paste_single_char`
(gen_handwriting_chinese_price.py lines 84-88). -/
def priceMask (samples : List Img) (pr : PasteRand) : Img :=
  if pr.dilate then pr.dil (priceThreshold (selectImg samples pr.pick))
  else priceThreshold (selectImg samples pr.pick)

/-- `_paste_single_char` (gen_handwriting_chinese_price.py lines 57-147),
modelled up to its returned success flag.  `False` is returned for an
empty sample list, an empty thresholded mask, an empty rotated mask, or a
zero scaled dimension; otherwise the paste succeeds. -/
def paste_single_char (samples : List Img) (pr : PasteRand) (bbox : BBoxI) : Bool :=
  if samples.isEmpty then false
  else
    match getbbox (priceMask samples pr) with
    | none => false
    | some b =>
      let mc := cropB (priceMask samples pr) b
      match getbbox (pr.rot mc) with
      | none => false
      | some b2 =>
        let mc2 := cropB (pr.rot mc) b2
        let fw : ℚ := ((bbox.x2 - bbox.x1 : ℤ) : ℚ)
        let fh : ℚ := ((bbox.y2 - bbox.y1 : ℤ) : ℚ)
        let css := fh * pr.u1 / (mc2.h : ℚ) * pr.u2
        let nw := pyInt ((mc2.w : ℚ) * css)
        let nh := pyInt ((mc2.h : ℚ) * css)
        let wide := (nw : ℚ) > fw * (6 / 5)
        let sf2 := fw * (6 / 5) / (mc2.w : ℚ)
        let nw2 := if wide then pyInt ((mc2.w : ℚ) * sf2) else nw
        let nh2 := if wide then pyInt ((mc2.h : ℚ) * sf2) else nh
        if nw2 = 0 ∨ nh2 = 0 then false else true

/-- `random.choice` from a character list, the choice given by an index. -/
def drawnDigit (cs : List Char) (pick : Nat) : Char :=
  cs.getD (pick % cs.length) ' '

/-- One iteration of the slot loop of `generate_capital_number_image`
(gen_handwriting_chinese_price.py lines 207-231): the unit lookup (an
out-of-range index raises), then the blank, first-digit or later-digit
case for slot `i` relative to the drawn start index. -/
def slotSeg (charMap : Char → List Img) (nSlots start : Nat)
    (digitPick : Nat → Nat) (pr : Nat → PasteRand) (units : List Char)
    (i : Nat) (bbox : BBoxI) : Except Unit Seg :=
  match units[i]? with
  | none => Except.error ()
  | some u =>
    if i < start then Except.ok ⟨' ', u, none⟩
    else if i = start then
      let cs := if i = nSlots - 1 then TARGET_CHAR_SET else TARGET_CHAR_SET.drop 1
      let c := drawnDigit cs (digitPick i)
      Except.ok ⟨c, u, some (paste_single_char (charMap c) (pr i) bbox)⟩
    else
      let c := drawnDigit TARGET_CHAR_SET (digitPick i)
      Except.ok ⟨c, u, some (paste_single_char (charMap c) (pr i) bbox)⟩

/-- The slot loop of `generate_capital_number_image` over the remaining
slot rectangles, `i` being the index of the first of them. -/
def buildSlots (charMap : Char → List Img) (nSlots start : Nat)
    (digitPick : Nat → Nat) (pr : Nat → PasteRand) (units : List Char) :
    Nat → List BBoxI → Except Unit (List Seg)
  | _, [] => Except.ok []
  | i, b :: rest =>
    match slotSeg charMap nSlots start digitPick pr units i b with
    | Except.error e => Except.error e
    | Except.ok s =>
      match buildSlots charMap nSlots start digitPick pr units (i + 1) rest with
      | Except.error e => Except.error e
      | Except.ok t => Except.ok (s :: t)

/-- Minimum of an integer list, first element as the seed. -/
def foldMinZ : List ℤ → ℤ
  | [] => 0
  | a :: t => t.foldl min a

/-- Maximum of an integer list, first element as the seed. -/
def foldMaxZ : List ℤ → ℤ
  | [] => 0
  | a :: t => t.foldl max a

/-- `generate_capital_number_image` (gen_handwriting_chinese_price.py
lines 149-296), modelled up to the data the claims mention: the list of
label segments with their paste outcomes.  A failed background load
returns the definitive no-result `Except.ok none`; the start-index draw
and the unit lookups can raise, modelled as `Except.error`; the final
crop-box degeneracy check returns `Except.ok none`; otherwise the
segments are returned.  Paste failures inside the loop are ignored by the
source (the return value of `_paste_single_char` is discarded), so they
do not influence the result beyond the recorded outcome flag. -/
def generate_capital_number_image (charMap : Char → List Img) (bg : Option Img)
    (bboxes : List BBoxI) (units : List Char)
    (startPick : Nat) (digitPick : Nat → Nat) (pr : Nat → PasteRand) :
    Except Unit (Option (List Seg)) :=
  match bg with
  | none => Except.ok none
  | some canvas =>
    match pyChoicesIdx (List.range bboxes.length) WEIGHTS startPick with
    | Except.error e => Except.error e
    | Except.ok start =>
      match buildSlots charMap bboxes.length start digitPick pr units 0 bboxes with
      | Except.error e => Except.error e
      | Except.ok segs =>
        let c1 := max 0 (foldMinZ (bboxes.map BBoxI.x1) - 5)
        let r1 := max 0 (foldMinZ (bboxes.map BBoxI.y1) - 5)
        let c2 := min (canvas.w : ℤ) 650
        let r2 := min (canvas.h : ℤ) (foldMaxZ (bboxes.map BBoxI.y2) + 5)
        if c1 ≥ c2 ∨ r1 ≥ r2 then Except.ok none
        else Except.ok (some segs)

/-- The x-stepping loop of the strikethrough drawing
(gen_handwriting_chinese_price.py lines 248-253): while `x < xE`, advance
`x` by the drawn step capped at `xE` and record a point with the drawn
vertical tremor.  The fuel bounds the iteration count; it is instantiated
with `xE - xS`, which suffices because every step is at least 1. -/
def strikeLoop (xE baseY : ℤ) (steps tremors : Nat → ℤ) : Nat → ℤ → Nat → List (ℤ × ℤ)
  | 0, _, _ => []
  | fuel + 1, x, i =>
    if x < xE then
      (min (x + steps i) xE, baseY + tremors i) ::
        strikeLoop xE baseY steps tremors fuel (min (x + steps i) xE) (i + 1)
    else []

/-- `points[-1] = p` on a nonempty Python list. -/
def setLast (l : List (ℤ × ℤ)) (p : ℤ × ℤ) : List (ℤ × ℤ) :=
  l.dropLast ++ [p]

/-- The strikethrough polyline (gen_handwriting_chinese_price.py
lines 240-255): start at the run left edge plus the inset `r1`, step to
the end `runR - r2`, then force the last point to exactly the end x with
its own small vertical jitter. -/
def strikePoints (runL runR r1 r2 baseY jEnd : ℤ) (steps tremors : Nat → ℤ) : List (ℤ × ℤ) :=
  setLast ((runL + r1, baseY) ::
      strikeLoop (runR - r2) baseY steps tremors (runR - r2 - (runL + r1)).toNat (runL + r1) 0)
    (runR - r2, baseY + jEnd)

/-- Concrete sample used by counterexamples: a 2 by 1 image whose corner
pixel is dark (intensity 0) and whose second pixel has intensity 30. -/
def imgDark30 : Img := ⟨2, 1, fun x _ => if x = 0 then 0 else 30⟩

/-- Concrete sample: a 1 by 1 image of intensity 100 (foreground under
both binarization rules). -/
def imgGray100 : Img := ⟨1, 1, fun _ _ => 100⟩

/-- Concrete all-background 1 by 1 image. -/
def imgZero : Img := ⟨1, 1, fun _ _ => 0⟩

/-- A degenerate rotation oracle that maps every mask to an
all-background image. -/
def rotZero : Img → Img := fun _ => imgZero

/-- A sample index with no samples for any character. -/
def cmEmpty : Char → List Img := fun _ => []

/-- A concrete 700 by 600 white background canvas. -/
def bgCanvas : Img := ⟨700, 600, fun _ _ => 255⟩

/-- Concrete paste randomness: first sample, no dilation, degenerate
rotation, zero scale draws. -/
def prZero : PasteRand := ⟨0, false, id, rotZero, 0, 0⟩

/-- The constant stream of `prZero`. -/
def prStream : Nat → PasteRand := fun _ => prZero

/-- The segments produced by the slotted generator on `cmEmpty` with
start index 8 and digit index 0: eight blank slots and one drawn `零`
whose paste failed. -/
def segsCex : List Seg :=
  [⟨' ', '億', none⟩, ⟨' ', '仟', none⟩, ⟨' ', '佰', none⟩, ⟨' ', '拾', none⟩,
   ⟨' ', '萬', none⟩, ⟨' ', '仟', none⟩, ⟨' ', '佰', none⟩, ⟨' ', '拾', none⟩,
   ⟨'零', '元', some false⟩]

/-- The segments produced by the slotted generator on `cmEmpty` with
start index 4 and digit index 0. -/
def segsStart4 : List Seg :=
  [⟨' ', '億', none⟩, ⟨' ', '仟', none⟩, ⟨' ', '佰', none⟩, ⟨' ', '拾', none⟩,
   ⟨'壹', '萬', some false⟩, ⟨'零', '仟', some false⟩, ⟨'零', '佰', some false⟩,
   ⟨'零', '拾', some false⟩, ⟨'零', '元', some false⟩]

/-- A concrete slot rectangle (the first default slot). -/
def bboxDemo : BBoxI := ⟨141, 493, 182, 532⟩

/-- Claim C2, counterexample.  The claim states that both generation modes
binarize adaptively (corner above 128: foreground is intensity below 230;
otherwise foreground is intensity above 50).  On a sample whose corner
pixel is 0 (dark background) and whose other pixel is 30, the adaptive
rule classifies the pixel of intensity 30 as background (30 is not above
50), but the slotted-mode code (gen_handwriting_chinese_price.py line 84)
uses the fixed rule `p < 200` and classifies it as foreground.  So the
slotted mode is not adaptive and the claim is false. -/
theorem claim_C2_counterexample :
    (priceThreshold imgDark30).px 1 0 = 255 ∧ adaptiveFg imgDark30 1 0 = false := by
  decide

/-- Claim C2 as amended: the flowing mode (gen_casia_company.py) binarizes
adaptively exactly as the claim states, while the slotted mode
(gen_handwriting_chinese_price.py) binarizes with the fixed rule that the
foreground is exactly the pixels of intensity below 200. -/
theorem claim_C2_amended (im : Img) (x y : Nat) :
    ((casiaThreshold im).px x y ≠ 0 ↔ adaptiveFg im x y = true) ∧
    ((priceThreshold im).px x y ≠ 0 ↔ im.px x y < 200) := by
  constructor
  · unfold casiaThreshold adaptiveFg
    by_cases hc : cornerVal im > 128 <;> simp [hc]
  · unfold priceThreshold
    by_cases hp : im.px x y < 200 <;> simp [hp]

theorem foldl_max_init_le (l : List Nat) (a : Nat) : a ≤ l.foldl max a := by
  induction l generalizing a with
  | nil => exact le_refl a
  | cons b t ih => exact le_trans (le_max_left a b) (ih (max a b))

theorem le_foldl_max_of_mem {l : List Nat} {x : Nat} (a : Nat) (hx : x ∈ l) :
    x ≤ l.foldl max a := by
  induction l generalizing a with
  | nil => cases hx
  | cons b t ih =>
    rcases List.mem_cons.mp hx with h | h
    · subst h
      exact le_trans (le_max_right a x) (foldl_max_init_le t (max a x))
    · exact ih (max a b) h

theorem mem_fgCols {im : Img} {x y : Nat} (hx : x < im.w) (hy : y < im.h)
    (hp : im.px x y ≠ 0) : x ∈ fgCols im := by
  unfold fgCols
  refine List.mem_filter.mpr ⟨List.mem_range.mpr hx, ?_⟩
  exact List.any_eq_true.mpr ⟨y, List.mem_range.mpr hy, by simpa [bne_iff_ne] using hp⟩

theorem mem_fgRows {im : Img} {x y : Nat} (hx : x < im.w) (hy : y < im.h)
    (hp : im.px x y ≠ 0) : y ∈ fgRows im := by
  unfold fgRows
  refine List.mem_filter.mpr ⟨List.mem_range.mpr hy, ?_⟩
  exact List.any_eq_true.mpr ⟨x, List.mem_range.mpr hx, by simpa [bne_iff_ne] using hp⟩

theorem fgCols_pairwise (im : Img) : (fgCols im).Pairwise (· < ·) :=
  (List.pairwise_lt_range im.w).filter _

theorem fgRows_pairwise (im : Img) : (fgRows im).Pairwise (· < ·) :=
  (List.pairwise_lt_range im.h).filter _

theorem getbbox_bounds {im : Img} {l u r d : Nat}
    (hb : getbbox im = some (l, u, r, d)) {x y : Nat}
    (hx : x < im.w) (hy : y < im.h) (hp : im.px x y ≠ 0) :
    l ≤ x ∧ x < r ∧ u ≤ y ∧ y < d := by
  have hxc := mem_fgCols hx hy hp
  have hyc := mem_fgRows hx hy hp
  have hpc := fgCols_pairwise im
  have hpr := fgRows_pairwise im
  unfold getbbox at hb
  rcases hcol : fgCols im with _ | ⟨x0, xr⟩
  · rw [hcol] at hb; exact Option.noConfusion hb
  rw [hcol] at hb hxc hpc
  rcases hrow : fgRows im with _ | ⟨y0, yr⟩
  · rw [hrow] at hb; exact Option.noConfusion hb
  rw [hrow] at hb hyc hpr
  simp only [Option.some.injEq, Prod.mk.injEq] at hb
  obtain ⟨h1, h2, h3, h4⟩ := hb
  subst h1; subst h2; subst h3; subst h4
  have hxle : x0 ≤ x := by
    rcases List.mem_cons.mp hxc with h | h
    · omega
    · exact le_of_lt ((List.pairwise_cons.mp hpc).1 x h)
  have hxlt : x ≤ xr.foldl max x0 := by
    rcases List.mem_cons.mp hxc with h | h
    · subst h; exact foldl_max_init_le xr x
    · exact le_foldl_max_of_mem x0 h
  have hyle : y0 ≤ y := by
    rcases List.mem_cons.mp hyc with h | h
    · omega
    · exact le_of_lt ((List.pairwise_cons.mp hpr).1 y h)
  have hylt : y ≤ yr.foldl max y0 := by
    rcases List.mem_cons.mp hyc with h | h
    · subst h; exact foldl_max_init_le yr y
    · exact le_foldl_max_of_mem y0 h
  exact ⟨hxle, by omega, hyle, by omega⟩

theorem exists_fg_of_getbbox {im : Img} {b : Nat × Nat × Nat × Nat}
    (hb : getbbox im = some b) :
    ∃ x y, x < im.w ∧ y < im.h ∧ im.px x y ≠ 0 := by
  unfold getbbox at hb
  rcases hcol : fgCols im with _ | ⟨x0, xr⟩
  · rw [hcol] at hb; exact Option.noConfusion hb
  have hx0 : x0 ∈ fgCols im := by rw [hcol]; exact List.mem_cons_self _ _
  unfold fgCols at hx0
  have hmem := List.mem_filter.mp hx0
  rcases List.any_eq_true.mp hmem.2 with ⟨y, hy, hpy⟩
  refine ⟨x0, y, List.mem_range.mp hmem.1, List.mem_range.mp hy, ?_⟩
  simpa [bne_iff_ne] using hpy

theorem cropB_getbbox_hasFg {im : Img} {b : Nat × Nat × Nat × Nat}
    (hb : getbbox im = some b) :
    ∃ x y, x < (cropB im b).w ∧ y < (cropB im b).h ∧ (cropB im b).px x y ≠ 0 := by
  obtain ⟨l, u, r, d⟩ := b
  obtain ⟨x, y, hx, hy, hp⟩ := exists_fg_of_getbbox hb
  obtain ⟨h1, h2, h3, h4⟩ := getbbox_bounds hb hx hy hp
  refine ⟨x - l, y - u, ?_, ?_, ?_⟩
  · show x - l < r - l; omega
  · show y - u < d - u; omega
  · show (if l + (x - l) < im.w ∧ u + (y - u) < im.h
        then im.px (l + (x - l)) (u + (y - u)) else 0) ≠ 0
    rw [Nat.add_sub_cancel' h1, Nat.add_sub_cancel' h3]
    simp [hx, hy, hp]

theorem getbbox_eq_none_of_hasFg_false {im : Img} (h : hasFg im = false) :
    getbbox im = none := by
  have hcols : fgCols im = [] := by
    unfold hasFg at h
    unfold fgCols
    rw [List.filter_eq_nil_iff]
    exact List.any_eq_false.mp h
  unfold getbbox
  rw [hcols]

/-- Claim C6: for a character with at least one sample, whenever
`_get_char_mask` succeeds the returned mask has at least one foreground
pixel, and an all-background thresholding result makes the extraction
fail (gen_casia_company.py lines 94-108).  The success case covers both
the rotated mask and the pre-rotation fallback, each cropped to a
nonempty foreground bounding box. -/
theorem claim_C6_mask_never_empty (samples : List Img) (pick : Nat) (rot : Img → Img) :
    (∀ m, get_char_mask samples pick rot = some m →
       ∃ x y, x < m.w ∧ y < m.h ∧ m.px x y ≠ 0) ∧
    (hasFg (casiaThreshold (selectImg samples pick)) = false →
       get_char_mask samples pick rot = none) := by
  constructor
  · intro m hm
    unfold get_char_mask at hm
    cases he : samples.isEmpty with
    | true => rw [he] at hm; simp at hm
    | false =>
      rw [he] at hm
      simp only [Bool.false_eq_true, if_false] at hm
      rcases hb : getbbox (casiaThreshold (selectImg samples pick)) with _ | b
      · rw [hb] at hm; exact Option.noConfusion hm
      · rw [hb] at hm
        simp only at hm
        rcases hb2 : getbbox (rot (cropB (casiaThreshold (selectImg samples pick)) b))
          with _ | b2
        · rw [hb2] at hm
          simp only [Option.some.injEq] at hm
          subst hm
          exact cropB_getbbox_hasFg hb
        · rw [hb2] at hm
          simp only [Option.some.injEq] at hm
          subst hm
          exact cropB_getbbox_hasFg hb2
  · intro h
    unfold get_char_mask
    cases he : samples.isEmpty with
    | true => simp
    | false =>
      simp only [Bool.false_eq_true, if_false]
      rw [getbbox_eq_none_of_hasFg_false h]

/-- Claim C6, witness: on a 1 by 1 sample of intensity 100 the extraction
succeeds and the theorem yields a foreground pixel of the returned mask;
on an all-zero sample the thresholded mask is all-background and the
extraction fails. -/
theorem claim_C6_witness :
    (∃ m, get_char_mask [imgGray100] 0 id = some m ∧
       ∃ x y, x < m.w ∧ y < m.h ∧ m.px x y ≠ 0) ∧
    get_char_mask [imgZero] 0 id = none :=
  ⟨⟨_, rfl, (claim_C6_mask_never_empty [imgGray100] 0 id).1 _ rfl⟩,
   (claim_C6_mask_never_empty [imgZero] 0 id).2 (by decide)⟩

/-- Claim C5, counterexample.  The claim states that in both modes a
rotation that leaves no foreground falls back to the pre-rotation cropped
mask rather than failing the character.  With a sample of intensity 100
(nonempty thresholded mask) and a degenerate rotation oracle returning an
all-background image, the slotted-mode `_paste_single_char`
(gen_handwriting_chinese_price.py line 102) returns failure for the
character instead of falling back, so the claim is false for the slotted
mode. -/
theorem claim_C5_counterexample :
    hasFg (priceMask [imgGray100] prZero) = true ∧
    getbbox (prZero.rot (cropB (priceMask [imgGray100] prZero) (0, 0, 1, 1))) = none ∧
    paste_single_char [imgGray100] prZero bboxDemo = false := by
  decide

/-- Claim C5 as amended: the pre-rotation fallback exists only in the
flowing mode.  In `_get_char_mask` (gen_casia_company.py lines 102-106) a
rotated mask with no foreground yields the pre-rotation cropped mask; in
`_paste_single_char` (gen_handwriting_chinese_price.py lines 100-102) the
same condition fails the character. -/
theorem claim_C5_amended (samples : List Img) (pick : Nat) (rot : Img → Img)
    (pr : PasteRand) (bbox : BBoxI) (hne : samples ≠ []) :
    (∀ b, getbbox (casiaThreshold (selectImg samples pick)) = some b →
        getbbox (rot (cropB (casiaThreshold (selectImg samples pick)) b)) = none →
        get_char_mask samples pick rot =
          some (cropB (casiaThreshold (selectImg samples pick)) b)) ∧
    (∀ b, getbbox (priceMask samples pr) = some b →
        getbbox (pr.rot (cropB (priceMask samples pr) b)) = none →
        paste_single_char samples pr bbox = false) := by
  have he : samples.isEmpty = false := List.isEmpty_eq_false.mpr hne
  constructor
  · intro b hb hrot
    unfold get_char_mask
    rw [he]
    simp only [Bool.false_eq_true, if_false]
    rw [hb]
    simp only
    rw [hrot]
  · intro b hb hrot
    unfold paste_single_char
    rw [he]
    simp only [Bool.false_eq_true, if_false]
    rw [hb]
    simp only
    rw [hrot]

/-- Claim C5, witness: concrete instantiation of the amended claim with a
1 by 1 sample of intensity 100 and the degenerate rotation oracle; the
flowing mode returns the pre-rotation crop, the slotted mode fails. -/
theorem claim_C5_witness :
    get_char_mask [imgGray100] 0 rotZero =
      some (cropB (casiaThreshold (selectImg [imgGray100] 0)) (0, 0, 1, 1)) ∧
    paste_single_char [imgGray100] prZero bboxDemo = false :=
  ⟨(claim_C5_amended [imgGray100] 0 rotZero prZero bboxDemo (by simp)).1 (0, 0, 1, 1)
      (by decide) (by decide),
   (claim_C5_amended [imgGray100] 0 rotZero prZero bboxDemo (by simp)).2 (0, 0, 1, 1)
      (by decide) (by decide)⟩

theorem collectMasks_none (charMap : Char → List Img) (picks : Nat → Nat)
    (rots : Nat → Img → Img) :
    ∀ (l : List Char) (i0 : Nat),
      (∃ j, ∃ hj : j < l.length,
        get_char_mask (charMap (l.get ⟨j, hj⟩)) (picks (i0 + j)) (rots (i0 + j)) = none) →
      collectMasks charMap picks rots l i0 = none := by
  intro l
  induction l with
  | nil =>
    intro i0 h
    obtain ⟨j, hj, _⟩ := h
    exact absurd hj (Nat.not_lt_zero j)
  | cons c t ih =>
    intro i0 h
    obtain ⟨j, hj, hmask⟩ := h
    unfold collectMasks
    cases j with
    | zero =>
      rw [Nat.add_zero] at hmask
      have hmask0 : get_char_mask (charMap c) (picks i0) (rots i0) = none := hmask
      rw [hmask0]
    | succ j' =>
      have harith : i0 + (j' + 1) = (i0 + 1) + j' := by omega
      rw [harith] at hmask
      have ht : collectMasks charMap picks rots t (i0 + 1) = none :=
        ih (i0 + 1) ⟨j', Nat.lt_of_succ_lt_succ hj, hmask⟩
      rw [ht]
      cases get_char_mask (charMap c) (picks i0) (rots i0) <;> rfl

/-- Claim C1 as amended: in flowing mode (gen_casia_company.py
lines 129-146) generation returns the definitive no-result whenever any
character of the label lacks a sample or any mask extraction fails.  The
slotted mode does not have this property: `generate_capital_number_image`
discards the return value of `_paste_single_char` (lines 225 and 231), so
a missing sample or failed extraction leaves the glyph un-pasted while an
image and a full label naming that glyph are still returned. -/
theorem claim_C1_amended (charMap : Char → List Img) (bg : Option Img)
    (fieldBox : ℤ × ℤ × ℤ × ℤ) (label : List Char)
    (picks : Nat → Nat) (rots : Nat → Img → Img) (spacing : Nat → Nat) (u : ℚ)
    (hfail : (∃ c ∈ label, charMap c = []) ∨
      ∃ i, ∃ hi : i < label.length,
        get_char_mask (charMap (label.get ⟨i, hi⟩)) (picks i) (rots i) = none) :
    generate_synthetic_image charMap bg fieldBox label picks rots spacing u = none := by
  unfold generate_synthetic_image
  by_cases hany : (label.any fun c => (charMap c).isEmpty) = true
  · rw [hany]
    simp
  · rw [Bool.not_eq_true] at hany
    rw [hany]
    simp only [Bool.false_eq_true, if_false]
    rcases hfail with ⟨c, hc, hmap⟩ | ⟨i, hi, hmask⟩
    · exfalso
      rw [List.any_eq_false] at hany
      exact (hany c hc) (by simp [hmap])
    · have hcoll : collectMasks charMap picks rots label 0 = none := by
        apply collectMasks_none
        exact ⟨i, hi, by simpa [Nat.zero_add] using hmask⟩
      rw [hcoll]

/-- Claim C1, witness: a label whose only character has no samples makes
the flowing-mode generator return the definitive no-result. -/
theorem claim_C1_witness :
    generate_synthetic_image cmEmpty none (0, 0, 0, 0) ['零'] (fun _ => 0)
      (fun _ => id) (fun _ => 0) 0 = none :=
  claim_C1_amended cmEmpty none (0, 0, 0, 0) ['零'] (fun _ => 0) (fun _ => id)
    (fun _ => 0) 0 (Or.inl ⟨'零', by simp, rfl⟩)

/-- Claim C1, counterexample.  The claim states that in both modes a label
character without a sample yields a definitive no-result, never an image
whose label names a glyph that was not pasted.  With an empty sample
index, start index 8 and digit index 0, the slotted-mode generator
(gen_handwriting_chinese_price.py lines 207-231) draws the digit 零 for
the final slot, its paste fails (recorded as `some false`), and the
generator nevertheless returns a full result whose label names 零, not
the no-result `Except.ok none`. -/
theorem claim_C1_counterexample :
    cmEmpty '零' = [] ∧
    generate_capital_number_image cmEmpty (some bgCanvas) DEFAULT_BBOXES STATIC_UNITS
      8 (fun _ => 0) prStream = Except.ok (some segsCex) ∧
    segsCex.getD 8 ⟨' ', ' ', none⟩ = ⟨'零', '元', some false⟩ :=
  ⟨rfl, rfl, rfl⟩

/-- Claim C7, counterexample.  The claim derives the flat height from the
unfloored target width: `max(floor(0.9 * maxH / r), floor(0.15 * maxH))`.
The code floors the target width first
(gen_casia_company.py lines 164-166).  With `maxH = 15` (so
`0.9 * maxH = 13.5`, floored to 13) and a 21 by 8 mask (`r = 2.625`), the
code computes height `floor(13 / 2.625) = 4` while the claim formula
gives `floor(13.5 / 2.625) = 5`. -/
theorem claim_C7_counterexample :
    normalizeMask 15 21 8 = some (13, 4) ∧ normalizeMaskClaim 15 21 8 = some (13, 5) := by
  constructor
  · unfold normalizeMask
    norm_num
    omega
  · unfold normalizeMaskClaim
    norm_num
    omega

/-- Claim C7 as amended: normalization classifies a mask as flat purely by
its aspect ratio `r = w / h`, exactly when `r > 2.0`; a flat mask is
resized to width `floor(0.9 * maxH)` and height
`max(floor(floor(0.9 * maxH) / r), floor(0.15 * maxH))` (the claim
formula corrected to divide the already floored target width); every
other mask is resized to height `maxH` and width `floor(maxH * r)`. -/
theorem claim_C7_amended (maxH w h : Nat) :
    normalizeMask maxH w h = normalizeMaskFixed maxH w h := rfl

/-- Claim C8, counterexample.  The claim states normalization changes no
dimensions on a batch already at the common target height.  The batch
with the single 21 by 10 mask is at its common height 10, but the mask is
flat (`r = 2.1 > 2`), so re-normalization rewrites it to
`floor(0.9 * 10) = 9` wide and `max(floor(9 / 2.1), floor(1.5)) = 4`
high. -/
theorem claim_C8_counterexample :
    batchMaxH [(21, 10)] = 10 ∧ normalizeBatch [(21, 10)] = some [(9, 4)] := by
  constructor
  · rfl
  · unfold normalizeBatch batchMaxH
    simp only [List.map, List.foldl, List.filterMap]
    norm_num [normalizeMask]
    omega

theorem foldl_max_const (t : List Nat) (H : Nat) (hall : ∀ x ∈ t, x = H) :
    t.foldl max H = H := by
  induction t with
  | nil => rfl
  | cons x t ih =>
    have hx : x = H := hall x (List.mem_cons_self _ _)
    subst hx
    simp only [List.foldl_cons, max_self]
    exact ih fun y hy => hall y (List.mem_cons_of_mem _ hy)

theorem batchMaxH_const (l : List (Nat × Nat)) (H : Nat) (hne : l ≠ [])
    (hall : ∀ p ∈ l, p.2 = H) : batchMaxH l = H := by
  rcases l with _ | ⟨p, t⟩
  · exact absurd rfl hne
  · unfold batchMaxH
    simp only [List.map_cons, List.foldl_cons, Nat.zero_max]
    rw [hall p (List.mem_cons_self _ _)]
    refine foldl_max_const _ H fun x hx => ?_
    rcases List.mem_map.mp hx with ⟨q, hq, hqx⟩
    rw [← hqx]
    exact hall q (List.mem_cons_of_mem _ hq)

theorem normalizeMask_keeps_nonflat (w H : Nat) (hw : 0 < w) (hH : 0 < H)
    (hr : (w : ℚ) ≤ 2 * (H : ℚ)) : normalizeMask H w H = some (w, H) := by
  have hHq : (0 : ℚ) < (H : ℚ) := by exact_mod_cast hH
  have hdiv : (w : ℚ) / (H : ℚ) ≤ 2 := by
    rw [div_le_iff₀ hHq]
    linarith
  have hmul : (H : ℚ) * ((w : ℚ) / (H : ℚ)) = (w : ℚ) := by
    rw [mul_comm, div_mul_cancel₀ _ (ne_of_gt hHq)]
  simp only [normalizeMask]
  rw [if_neg (by omega : ¬H = 0), if_neg (not_lt.mpr hdiv), hmul, Int.floor_natCast]
  rw [if_neg (by exact_mod_cast hw.ne' : ¬((w : ℤ) = 0))]
  simp

theorem filterMap_normalize_id (H : Nat) (l : List (Nat × Nat))
    (hall : ∀ p ∈ l, normalizeMask H p.1 p.2 = some p) :
    l.filterMap (fun p => normalizeMask H p.1 p.2) = l := by
  induction l with
  | nil => rfl
  | cons p t ih =>
    rw [List.filterMap_cons, hall p (List.mem_cons_self _ _)]
    rw [ih fun q hq => hall q (List.mem_cons_of_mem _ hq)]

/-- Claim C8 as amended: normalization is idempotent on a batch of glyphs
at the common target height whose aspect ratios do not exceed 2 (positive
widths understood): every glyph keeps its exact dimensions.  A glyph at
the common height whose ratio exceeds 2 is instead re-shrunk by the flat
rule, as the counterexample shows, so the idempotence claim holds only on
batches without flat glyphs. -/
theorem claim_C8_amended (l : List (Nat × Nat)) (H : Nat) (hne : l ≠ [])
    (hH : 0 < H)
    (hall : ∀ p ∈ l, p.2 = H ∧ 0 < p.1 ∧ (p.1 : ℚ) ≤ 2 * (p.2 : ℚ)) :
    normalizeBatch l = some l := by
  have hmax : batchMaxH l = H := batchMaxH_const l H hne fun p hp => (hall p hp).1
  have hall2 : ∀ p ∈ l, normalizeMask H p.1 p.2 = some p := by
    intro p hp
    obtain ⟨h1, h2, h3⟩ := hall p hp
    rw [h1]
    have hkeep := normalizeMask_keeps_nonflat p.1 H h2 hH (h1 ▸ h3)
    rw [hkeep, ← h1]
  rcases l with _ | ⟨p, t⟩
  · exact absurd rfl hne
  · simp only [normalizeBatch]
    rw [hmax, if_neg (by omega : ¬H = 0)]
    rw [filterMap_normalize_id H (p :: t) hall2]
    simp

/-- Claim C8, witness: a batch of two glyphs at common height 3 with
ratios at most 2 is returned unchanged by normalization. -/
theorem claim_C8_witness : normalizeBatch [(4, 3), (6, 3)] = some [(4, 3), (6, 3)] :=
  claim_C8_amended [(4, 3), (6, 3)] 3 (by simp) (by norm_num)
    (by intro p hp; fin_cases hp <;> exact ⟨rfl, by norm_num, by norm_num⟩)

theorem pyInt_le_self {q : ℚ} (hq : 0 ≤ q) : (pyInt q : ℚ) ≤ q := by
  unfold pyInt
  rw [if_pos hq]
  exact Int.floor_le q

theorem scaledKeptWidths_sum_le (glyphs : List (Nat × Nat)) (s : ℚ) (hs : 0 ≤ s) :
    (((scaledKeptWidths glyphs s).sum : ℤ) : ℚ) ≤ (((glyphs.map Prod.fst).sum : ℕ) : ℚ) * s := by
  induction glyphs with
  | nil => simp [scaledKeptWidths]
  | cons p t ih =>
    have hterm : (0 : ℚ) ≤ (p.1 : ℚ) * s := mul_nonneg (by positivity) hs
    have hrhs : ((((p :: t).map Prod.fst).sum : ℕ) : ℚ) * s =
        (p.1 : ℚ) * s + (((t.map Prod.fst).sum : ℕ) : ℚ) * s := by
      simp only [List.map_cons, List.sum_cons, Nat.cast_add]
      ring
    rw [hrhs]
    simp only [scaledKeptWidths, List.filterMap_cons] at ih ⊢
    by_cases hc : pyInt ((p.1 : ℚ) * s) = 0 ∨ pyInt ((p.2 : ℚ) * s) = 0
    · rw [if_pos hc]
      linarith [ih]
    · rw [if_neg hc]
      have hle : (pyInt ((p.1 : ℚ) * s) : ℚ) ≤ (p.1 : ℚ) * s := pyInt_le_self hterm
      simp only [List.sum_cons, Int.cast_add]
      linarith [ih, hle]

theorem spacingsScaled_sum_le (spacings : List Nat) (s : ℚ) (hs : 0 ≤ s) :
    ((((spacings.map fun sp : Nat => pyInt ((sp : ℚ) * s)).sum : ℤ)) : ℚ) ≤
      ((spacings.sum : ℕ) : ℚ) * s := by
  induction spacings with
  | nil => simp
  | cons a t ih =>
    have hterm : (0 : ℚ) ≤ (a : ℚ) * s := mul_nonneg (by positivity) hs
    have hle : (pyInt ((a : ℚ) * s) : ℚ) ≤ (a : ℚ) * s := pyInt_le_self hterm
    have hrhs : (((a :: t).sum : ℕ) : ℚ) * s = (a : ℚ) * s + ((t.sum : ℕ) : ℚ) * s := by
      simp only [List.sum_cons, Nat.cast_add]
      ring
    rw [hrhs]
    simp only [List.map_cons, List.sum_cons, Int.cast_add]
    linarith [ih, hle]

theorem casiaScaleShrunk_nonneg (fieldW fieldH maxH totalW u : ℚ)
    (hW : 10 ≤ fieldW) (hH : 6 ≤ fieldH) (hmax : 0 < maxH) (hu : 0 < u)
    (htot : 0 < totalW) : 0 ≤ casiaScaleShrunk fieldW fieldH maxH totalW u := by
  unfold casiaScaleShrunk casiaScaleRaw
  split
  · exact div_nonneg (by linarith) (le_of_lt htot)
  · have h1 : 0 ≤ (fieldH - 6) * u := mul_nonneg (by linarith) (le_of_lt hu)
    positivity

theorem totalW_mul_casiaScale_le (fieldW fieldH maxH totalW u : ℚ)
    (htot : 0 < totalW) :
    totalW * casiaScale fieldW fieldH maxH totalW u ≤ fieldW - 10 := by
  unfold casiaScale casiaScaleShrunk
  by_cases hc : totalW * casiaScaleRaw fieldH maxH u > fieldW - 10
  · rw [if_pos hc]
    have hmin : min (5 / 2 : ℚ) ((fieldW - 10) / totalW) ≤ (fieldW - 10) / totalW :=
      min_le_right _ _
    calc totalW * min (5 / 2 : ℚ) ((fieldW - 10) / totalW)
        ≤ totalW * ((fieldW - 10) / totalW) :=
          mul_le_mul_of_nonneg_left hmin (le_of_lt htot)
      _ = fieldW - 10 := mul_div_cancel₀ _ (ne_of_gt htot)
  · rw [if_neg hc]
    push_neg at hc
    have hmin : min (5 / 2 : ℚ) (casiaScaleRaw fieldH maxH u) ≤ casiaScaleRaw fieldH maxH u :=
      min_le_right _ _
    calc totalW * min (5 / 2 : ℚ) (casiaScaleRaw fieldH maxH u)
        ≤ totalW * casiaScaleRaw fieldH maxH u :=
          mul_le_mul_of_nonneg_left hmin (le_of_lt htot)
      _ ≤ fieldW - 10 := hc

/-- Claim C4: in flowing mode, for a nonempty batch of normalized glyphs
(widths at least 1) and a field rectangle with width at least 10 and
height at least 6, the total placed width (kept scaled glyph widths plus
all scaled spacings, gen_casia_company.py line 226) never exceeds
`fieldW - 10`; when `totalW` times the raw scale would exceed
`fieldW - 10` the shrunk scale is exactly `(fieldW - 10) / totalW`
(lines 192-194); and the final scale is clamped to at most 2.5
(line 196). -/
theorem claim_C4_layout_width (glyphs : List (Nat × Nat)) (spacings : List Nat)
    (fieldW fieldH maxH u : ℚ)
    (hne : glyphs ≠ []) (hw1 : ∀ p ∈ glyphs, 1 ≤ p.1)
    (hW : 10 ≤ fieldW) (hH : 6 ≤ fieldH) (hmax : 0 < maxH)
    (hu1 : 3 / 4 ≤ u) (hu2 : u ≤ 9 / 10) :
    ((placedWidth glyphs spacings
        (casiaScale fieldW fieldH maxH
          (((glyphs.map Prod.fst).sum + spacings.sum : ℕ) : ℚ) u) : ℤ) : ℚ) ≤ fieldW - 10 ∧
    ((((glyphs.map Prod.fst).sum + spacings.sum : ℕ) : ℚ) * casiaScaleRaw fieldH maxH u >
        fieldW - 10 →
      casiaScaleShrunk fieldW fieldH maxH
          (((glyphs.map Prod.fst).sum + spacings.sum : ℕ) : ℚ) u =
        (fieldW - 10) / (((glyphs.map Prod.fst).sum + spacings.sum : ℕ) : ℚ)) ∧
    casiaScale fieldW fieldH maxH (((glyphs.map Prod.fst).sum + spacings.sum : ℕ) : ℚ) u ≤
      5 / 2 := by
  have hsum1 : 1 ≤ (glyphs.map Prod.fst).sum := by
    rcases glyphs with _ | ⟨p, t⟩
    · exact absurd rfl hne
    · have hp := hw1 p (List.mem_cons_self _ _)
      simp only [List.map_cons, List.sum_cons]
      omega
  have htot : (0 : ℚ) < (((glyphs.map Prod.fst).sum + spacings.sum : ℕ) : ℚ) := by
    have h1 : 0 < (glyphs.map Prod.fst).sum + spacings.sum := by omega
    exact_mod_cast h1
  have hu : (0 : ℚ) < u := by linarith
  set totalW : ℚ := (((glyphs.map Prod.fst).sum + spacings.sum : ℕ) : ℚ) with htw
  have hs0 : 0 ≤ casiaScale fieldW fieldH maxH totalW u := by
    unfold casiaScale
    exact le_min (by norm_num)
      (casiaScaleShrunk_nonneg fieldW fieldH maxH totalW u hW hH hmax hu htot)
  set s := casiaScale fieldW fieldH maxH totalW u with hsdef
  refine ⟨?_, ?_, min_le_left _ _⟩
  · have hgl := scaledKeptWidths_sum_le glyphs s hs0
    have hsp := spacingsScaled_sum_le spacings s hs0
    have hmul := totalW_mul_casiaScale_le fieldW fieldH maxH totalW u htot
    rw [← hsdef] at hmul
    have hsplit : totalW = (((glyphs.map Prod.fst).sum : ℕ) : ℚ) + ((spacings.sum : ℕ) : ℚ) := by
      rw [htw, Nat.cast_add]
    have hdist : totalW * s =
        (((glyphs.map Prod.fst).sum : ℕ) : ℚ) * s + ((spacings.sum : ℕ) : ℚ) * s := by
      rw [hsplit]
      ring
    unfold placedWidth
    rw [Int.cast_add]
    linarith [hgl, hsp, hmul, hdist]
  · intro hover
    unfold casiaScaleShrunk
    rw [if_pos hover]

/-- Claim C4, witness: one 10 by 10 glyph, no spacing, a 100 by 26 field
and the scale draw 0.8. -/
theorem claim_C4_witness :
    ((placedWidth [(10, 10)] []
        (casiaScale 100 26 10 ((([(10, 10)].map Prod.fst).sum + ([] : List Nat).sum : ℕ) : ℚ)
          (4 / 5)) : ℤ) : ℚ) ≤ 100 - 10 ∧
    (((([(10, 10)].map Prod.fst).sum + ([] : List Nat).sum : ℕ) : ℚ) *
        casiaScaleRaw 26 10 (4 / 5) > 100 - 10 →
      casiaScaleShrunk 100 26 10
          ((([(10, 10)].map Prod.fst).sum + ([] : List Nat).sum : ℕ) : ℚ) (4 / 5) =
        (100 - 10) / ((([(10, 10)].map Prod.fst).sum + ([] : List Nat).sum : ℕ) : ℚ)) ∧
    casiaScale 100 26 10 ((([(10, 10)].map Prod.fst).sum + ([] : List Nat).sum : ℕ) : ℚ)
        (4 / 5) ≤ 5 / 2 :=
  claim_C4_layout_width [(10, 10)] [] 100 26 10 (4 / 5) (by simp)
    (by intro p hp; fin_cases hp; norm_num) (by norm_num) (by norm_num) (by norm_num)
    (by norm_num) (by norm_num)

theorem drawnDigit_mem (cs : List Char) (p : Nat) (hne : cs ≠ []) : drawnDigit cs p ∈ cs := by
  unfold drawnDigit
  have hlt : p % cs.length < cs.length := Nat.mod_lt _ (List.length_pos.mpr hne)
  rw [List.getD_eq_getElem?_getD, List.getElem?_eq_getElem hlt]
  exact List.getElem_mem hlt

theorem buildSlots_ok (charMap : Char → List Img) (nSlots start : Nat)
    (digitPick : Nat → Nat) (pr : Nat → PasteRand) (units : List Char) :
    ∀ (bs : List BBoxI) (i : Nat) (segs : List Seg),
      buildSlots charMap nSlots start digitPick pr units i bs = Except.ok segs →
      segs.length = bs.length ∧
      ∀ j s, segs[j]? = some s →
        ∃ b, bs[j]? = some b ∧
          slotSeg charMap nSlots start digitPick pr units (i + j) b = Except.ok s := by
  intro bs
  induction bs with
  | nil =>
    intro i segs h
    simp only [buildSlots, Except.ok.injEq] at h
    subst h
    exact ⟨rfl, fun j s hj => by simp at hj⟩
  | cons b t ih =>
    intro i segs h
    simp only [buildSlots] at h
    rcases hs : slotSeg charMap nSlots start digitPick pr units i b with e | s0
    · rw [hs] at h; exact Except.noConfusion h
    rw [hs] at h
    rcases hr : buildSlots charMap nSlots start digitPick pr units (i + 1) t with e | t0
    · rw [hr] at h; exact Except.noConfusion h
    rw [hr] at h
    simp only [Except.ok.injEq] at h
    subst h
    obtain ⟨hlen, hall⟩ := ih (i + 1) t0 hr
    refine ⟨by simp [hlen], ?_⟩
    intro j s hj
    cases j with
    | zero =>
      simp only [List.getElem?_cons_zero, Option.some.injEq] at hj
      subst hj
      refine ⟨b, by simp, ?_⟩
      rw [Nat.add_zero]
      exact hs
    | succ j' =>
      simp only [List.getElem?_cons_succ] at hj
      obtain ⟨b', hb', hslot⟩ := hall j' s hj
      refine ⟨b', by simpa using hb', ?_⟩
      rw [show i + (j' + 1) = (i + 1) + j' by omega]
      exact hslot

/-- Claim C3: whenever the slotted-mode generator returns a result, the
label has exactly one (digit-or-blank, unit) segment per slot in slot
order; a segment is blank exactly for the slots strictly before the start
index `startPick % bboxes.length` (so blanks form a strict prefix and are
never interleaved with digits); the digit at the start index is drawn
from the zero-free tail of `TARGET_CHAR_SET` unless the start index is
the final slot; and every drawn digit belongs to `TARGET_CHAR_SET`
(gen_handwriting_chinese_price.py lines 198-231). -/
theorem claim_C3_label_structure (charMap : Char → List Img) (canvas : Img)
    (bboxes : List BBoxI) (units : List Char) (startPick : Nat)
    (digitPick : Nat → Nat) (pr : Nat → PasteRand) (segs : List Seg)
    (hok : generate_capital_number_image charMap (some canvas) bboxes units startPick
        digitPick pr = Except.ok (some segs)) :
    segs.length = bboxes.length ∧
    ∀ j s, segs[j]? = some s →
      (s.digit = ' ' ↔ j < startPick % bboxes.length) ∧
      s.unit = (units[j]?).getD ' ' ∧
      (j = startPick % bboxes.length → j ≠ bboxes.length - 1 →
        s.digit ∈ TARGET_CHAR_SET.drop 1 ∧ s.digit ≠ '零') ∧
      (startPick % bboxes.length ≤ j → s.digit ∈ TARGET_CHAR_SET) := by
  simp only [generate_capital_number_image] at hok
  split at hok
  · exact Except.noConfusion hok
  next start heq =>
  unfold pyChoicesIdx at heq
  simp only [List.length_range] at heq
  by_cases hlen : bboxes.length ≠ WEIGHTS.length
  · rw [if_pos hlen] at heq
    exact Except.noConfusion heq
  rw [if_neg hlen] at heq
  push_neg at hlen
  have h9 : bboxes.length = 9 := by simpa [WEIGHTS] using hlen
  have hstart : start = startPick % bboxes.length := by
    simp only [Except.ok.injEq] at heq
    rw [← heq, List.getD_eq_getElem?_getD, List.getElem?_range (Nat.mod_lt _ (by omega))]
    rfl
  subst hstart
  split at hok
  · exact Except.noConfusion hok
  next segs0 hb =>
  split at hok
  · simp at hok
  simp only [Except.ok.injEq, Option.some.injEq] at hok
  subst hok
  obtain ⟨hlen0, hall⟩ := buildSlots_ok charMap bboxes.length (startPick % bboxes.length)
    digitPick pr units bboxes 0 segs0 hb
  refine ⟨hlen0, ?_⟩
  intro j s hj
  obtain ⟨b, hbj, hslot⟩ := hall j s hj
  rw [Nat.zero_add] at hslot
  unfold slotSeg at hslot
  split at hslot
  · exact Except.noConfusion hslot
  next u hu =>
  by_cases hblank : j < startPick % bboxes.length
  · rw [if_pos hblank] at hslot
    simp only [Except.ok.injEq] at hslot
    subst hslot
    refine ⟨by simpa using hblank, by simp [hu], ?_, ?_⟩
    · intro hj0
      omega
    · intro hge
      omega
  · rw [if_neg hblank] at hslot
    by_cases heq : j = startPick % bboxes.length
    · rw [if_pos heq] at hslot
      simp only [Except.ok.injEq] at hslot
      subst hslot
      dsimp only
      set cs := if j = bboxes.length - 1 then TARGET_CHAR_SET else TARGET_CHAR_SET.drop 1
        with hcs
      have hcsne : cs ≠ [] := by
        rw [hcs]
        split <;> decide
      have hmem : drawnDigit cs (digitPick j) ∈ cs := drawnDigit_mem _ _ hcsne
      have hss : cs ⊆ TARGET_CHAR_SET := by
        rw [hcs]
        split
        · exact fun a ha => ha
        · exact List.drop_subset 1 TARGET_CHAR_SET
      have hsub : drawnDigit cs (digitPick j) ∈ TARGET_CHAR_SET := hss hmem
      have hnb : drawnDigit cs (digitPick j) ≠ ' ' := by
        intro hcontra
        rw [hcontra] at hsub
        exact absurd hsub (by decide)
      refine ⟨iff_of_false hnb hblank, by simp [hu], ?_, fun _ => hsub⟩
      intro _ hlast
      have hcseq : cs = TARGET_CHAR_SET.drop 1 := by rw [hcs, if_neg hlast]
      nth_rewrite 1 [hcseq] at hmem
      refine ⟨hmem, ?_⟩
      intro hcontra
      rw [hcontra] at hmem
      exact absurd hmem (by decide)
    · rw [if_neg heq] at hslot
      simp only [Except.ok.injEq] at hslot
      subst hslot
      dsimp only
      have hmem : drawnDigit TARGET_CHAR_SET (digitPick j) ∈ TARGET_CHAR_SET :=
        drawnDigit_mem _ _ (by decide)
      have hnb : drawnDigit TARGET_CHAR_SET (digitPick j) ≠ ' ' := by
        intro hcontra
        rw [hcontra] at hmem
        exact absurd hmem (by decide)
      exact ⟨iff_of_false hnb hblank, by simp [hu], fun hj0 => absurd hj0 heq, fun _ => hmem⟩

/-- Claim C3, witness: concrete run with start index 4 on the default
template; the generator succeeds, the label has one segment per slot, and
the start-slot digit 壹 comes from the zero-free set. -/
theorem claim_C3_witness :
    generate_capital_number_image cmEmpty (some bgCanvas) DEFAULT_BBOXES STATIC_UNITS 4
      (fun _ => 0) prStream = Except.ok (some segsStart4) ∧
    segsStart4.length = DEFAULT_BBOXES.length ∧
    (('壹' : Char) ∈ TARGET_CHAR_SET.drop 1 ∧ ('壹' : Char) ≠ '零') := by
  have hok : generate_capital_number_image cmEmpty (some bgCanvas) DEFAULT_BBOXES
      STATIC_UNITS 4 (fun _ => 0) prStream = Except.ok (some segsStart4) := rfl
  have h := claim_C3_label_structure cmEmpty bgCanvas DEFAULT_BBOXES STATIC_UNITS 4
    (fun _ => 0) prStream segsStart4 hok
  refine ⟨hok, h.1, ?_⟩
  have h4 := h.2 4 ⟨'壹', '萬', some false⟩ (by decide)
  exact h4.2.2.1 (by decide) (by decide)

/-- Claim C10: the slotted-mode generator works only for exactly 9 slots.
For every bounding-box list whose length differs from 9, the weighted
start-index draw (`random.choices` with the fixed 9-element weight list,
gen_handwriting_chinese_price.py lines 198-202) raises instead of
returning the definitive no-result pair; the background must load for the
draw to be reached. -/
theorem claim_C10_nine_slots (charMap : Char → List Img) (canvas : Img)
    (bboxes : List BBoxI) (units : List Char) (startPick : Nat)
    (digitPick : Nat → Nat) (pr : Nat → PasteRand)
    (hlen : bboxes.length ≠ 9) :
    generate_capital_number_image charMap (some canvas) bboxes units startPick digitPick pr =
      Except.error () := by
  have herr : pyChoicesIdx (List.range bboxes.length) WEIGHTS startPick =
      Except.error () := by
    unfold pyChoicesIdx
    rw [List.length_range]
    rw [if_pos (by simpa [WEIGHTS] using hlen)]
  simp only [generate_capital_number_image]
  rw [herr]

/-- Claim C10, witness: a single-slot bounding-box list raises. -/
theorem claim_C10_witness :
    generate_capital_number_image cmEmpty (some bgCanvas) [bboxDemo] STATIC_UNITS 0
      (fun _ => 0) prStream = Except.error () :=
  claim_C10_nine_slots cmEmpty bgCanvas [bboxDemo] STATIC_UNITS 0 (fun _ => 0) prStream
    (by decide)

theorem strikeLoop_bounds (xE baseY : ℤ) (steps tremors : Nat → ℤ)
    (hst : ∀ k, 0 ≤ steps k) :
    ∀ (fuel : Nat) (x : ℤ) (i : Nat),
      (∀ p ∈ strikeLoop xE baseY steps tremors fuel x i, x ≤ p.1 ∧ p.1 ≤ xE) ∧
      List.Chain' (fun p q : ℤ × ℤ => p.1 ≤ q.1)
        (strikeLoop xE baseY steps tremors fuel x i) := by
  intro fuel
  induction fuel with
  | zero =>
    intro x i
    exact ⟨fun p hp => absurd hp (List.not_mem_nil p), List.chain'_nil⟩
  | succ f ih =>
    intro x i
    by_cases hx : x < xE
    · simp only [strikeLoop, if_pos hx]
      obtain ⟨ihb, ihc⟩ := ih (min (x + steps i) xE) (i + 1)
      have hxmin : x ≤ min (x + steps i) xE :=
        le_min (by linarith [hst i]) (le_of_lt hx)
      constructor
      · intro p hp
        rcases List.mem_cons.mp hp with h | h
        · subst h
          exact ⟨hxmin, min_le_right _ _⟩
        · have hb := ihb p h
          exact ⟨le_trans hxmin hb.1, hb.2⟩
      · rw [List.chain'_cons']
        refine ⟨?_, ihc⟩
        intro q hq
        exact (ihb q (List.mem_of_mem_head? hq)).1
    · simp only [strikeLoop, if_neg hx]
      exact ⟨fun p hp => absurd hp (List.not_mem_nil p), List.chain'_nil⟩

theorem chain_le_setLast (l : List (ℤ × ℤ)) (e : ℤ × ℤ)
    (hc : List.Chain' (fun p q : ℤ × ℤ => p.1 ≤ q.1) l)
    (hb : ∀ p ∈ l, p.1 ≤ e.1) :
    List.Chain' (fun p q : ℤ × ℤ => p.1 ≤ q.1) (setLast l e) := by
  unfold setLast
  haveI : IsTrans (ℤ × ℤ) (fun p q : ℤ × ℤ => p.1 ≤ q.1) :=
    ⟨fun a b c hab hbc => le_trans hab hbc⟩
  rw [List.chain'_append]
  refine ⟨hc.sublist (List.dropLast_sublist l), by simp, ?_⟩
  intro p hp q hq
  simp only [List.head?_cons, Option.mem_def, Option.some.injEq] at hq
  subst hq
  have hpl : p ∈ l := (List.dropLast_sublist l).subset (List.mem_of_mem_getLast? hp)
  exact hb p hpl

/-- Claim C9: whenever the strikethrough polyline is drawn over a blank
run whose insets leave the start strictly left of the end, its first
point is at the run left edge plus the inset (3 to 10 px), its last point
is exactly at the computed end x, and the x coordinates are monotonically
non-decreasing (gen_handwriting_chinese_price.py lines 240-255). -/
theorem claim_C9_strikethrough (runL runR r1 r2 baseY jEnd : ℤ) (steps tremors : Nat → ℤ)
    (hr1a : 3 ≤ r1) (hr1b : r1 ≤ 10) (hr2a : 3 ≤ r2) (hr2b : r2 ≤ 10)
    (hst : ∀ k, 30 ≤ steps k) (hlt : runL + r1 < runR - r2) :
    (strikePoints runL runR r1 r2 baseY jEnd steps tremors).head? =
      some (runL + r1, baseY) ∧
    (strikePoints runL runR r1 r2 baseY jEnd steps tremors).getLast? =
      some (runR - r2, baseY + jEnd) ∧
    List.Chain' (fun p q : ℤ × ℤ => p.1 ≤ q.1)
      (strikePoints runL runR r1 r2 baseY jEnd steps tremors) := by
  have hst0 : ∀ k, (0 : ℤ) ≤ steps k := fun k => le_trans (by norm_num) (hst k)
  obtain ⟨hbnd, hchain⟩ := strikeLoop_bounds (runR - r2) baseY steps tremors hst0
    ((runR - r2 - (runL + r1)).toNat) (runL + r1) 0
  have hf : ∃ f, (runR - r2 - (runL + r1)).toNat = f + 1 := by
    have h0 : 0 < (runR - r2 - (runL + r1)).toNat := by omega
    exact ⟨(runR - r2 - (runL + r1)).toNat - 1, by omega⟩
  obtain ⟨f, hf⟩ := hf
  have hloop : strikeLoop (runR - r2) baseY steps tremors
      ((runR - r2 - (runL + r1)).toNat) (runL + r1) 0 =
      (min (runL + r1 + steps 0) (runR - r2), baseY + tremors 0) ::
        strikeLoop (runR - r2) baseY steps tremors f
          (min (runL + r1 + steps 0) (runR - r2)) 1 := by
    rw [hf]
    simp only [strikeLoop, if_pos hlt]
  have hchainfull : List.Chain' (fun p q : ℤ × ℤ => p.1 ≤ q.1)
      ((runL + r1, baseY) :: strikeLoop (runR - r2) baseY steps tremors
        ((runR - r2 - (runL + r1)).toNat) (runL + r1) 0) := by
    rw [List.chain'_cons']
    refine ⟨?_, hchain⟩
    intro q hq
    exact (hbnd q (List.mem_of_mem_head? hq)).1
  have hboundfull : ∀ p ∈ (runL + r1, baseY) :: strikeLoop (runR - r2) baseY steps tremors
      ((runR - r2 - (runL + r1)).toNat) (runL + r1) 0, p.1 ≤ (runR - r2, baseY + jEnd).1 := by
    intro p hp
    rcases List.mem_cons.mp hp with h | h
    · subst h
      exact le_of_lt hlt
    · exact (hbnd p h).2
  refine ⟨?_, ?_, ?_⟩
  · unfold strikePoints setLast
    rw [hloop, List.dropLast_cons₂]
    rfl
  · unfold strikePoints setLast
    exact List.getLast?_concat _
  · exact chain_le_setLast _ _ hchainfull hboundfull

/-- Claim C9, witness: a run from 0 to 100 with insets 3, constant steps
30 and no tremor. -/
theorem claim_C9_witness :
    (strikePoints 0 100 3 3 0 0 (fun _ => 30) (fun _ => 0)).head? = some (0 + 3, 0) ∧
    (strikePoints 0 100 3 3 0 0 (fun _ => 30) (fun _ => 0)).getLast? =
      some (100 - 3, 0 + 0) ∧
    List.Chain' (fun p q : ℤ × ℤ => p.1 ≤ q.1)
      (strikePoints 0 100 3 3 0 0 (fun _ => 30) (fun _ => 0)) :=
  claim_C9_strikethrough 0 100 3 3 0 0 (fun _ => 30) (fun _ => 0) (by norm_num)
    (by norm_num) (by norm_num) (by norm_num) (fun k => by norm_num) (by norm_num)
